import Mathlib

/-!
Verification of the polynomial library (dense big-integer polynomials with
optional prime modulus, plus Shamir share generation) against its
natural-language specification.

The Go code is shallowly embedded: `big.Int` becomes `Int`; a `Poly` (slice of
`*big.Int`, coefficients stored low to high) becomes `List Int`; the optional
`*big.Int` modulus becomes `Option Int`.  Go's `big.Int.Div`/`big.Int.Mod`
implement Euclidean division (remainder in `[0, |y|)`), which is exactly
`Int.ediv`/`Int.emod`, i.e. `/` and `%` on `Int` in Lean.  The unbounded
`for` loop of `Div` and the unbounded recursion of `Gcd` are given explicit
fuel; theorems about them quantify over the fuel, and running out of fuel is
the distinguished value `none`.
-/

namespace PolyGo

/-- Coefficient sequence of a polynomial, lowest degree first
(Go `type Poly []*big.Int`; `y = 3x^3 + 2x + 1` is stored as `[1, 2, 0, 3]`). -/
abbrev Poly := List Int

/-- Go `big.Int.Mod x m`: Euclidean remainder, in `[0, |m|)` for `m ≠ 0`.
`Int.emod` by `|m|` has exactly this range. -/
def goMod (x m : Int) : Int := Int.emod x (m.natAbs : Int)

/-- Reduction under an optional modulus: the identity when the Go code received
`nil`, `goMod · m` when it received a modulus. -/
def mapMod : Option Int → Int → Int
  | none, x => x
  | some m, x => goMod x m

/-- Go `r.ModInverse(g, n)` on a fresh receiver `r = 0`: the inverse of `g`
modulo `|n|` when `gcd(g, n) = 1`, and `0` (the receiver left unchanged) when
`g` has no inverse.  The inverse is produced from the extended Euclidean
algorithm, as in Go. -/
def modInverse (g n : Int) : Int :=
  if Int.gcd g n = 1 then goMod (Int.gcdA g n) n else 0

/-- Go `GetDegree`: length minus one, as a Go `int` (so the empty slice,
which Go never constructs but the embedding must total over, gives `-1`). -/
def GetDegree (p : Poly) : Int := (p.length : Int) - 1

/-- The index found by Go `trim`'s downward scan from position `i`: the largest
index in `[1, i]` holding a nonzero coefficient, and `0` when there is none. -/
def lastNonzeroFrom (p : Poly) : Nat → Nat
  | 0 => 0
  | i + 1 => if p.getD (i + 1) 0 ≠ 0 then i + 1 else lastNonzeroFrom p i

/-- Go `trim`: drop leading (highest-index) zero coefficients, never removing
the constant term, by cutting just past the last nonzero coefficient. -/
def trim (p : Poly) : Poly := p.take (lastNonzeroFrom p (p.length - 1) + 1)

/-- Go `isZero`: degree `0` and sole coefficient `0`. -/
def isZero (p : Poly) : Bool := GetDegree p == 0 && p.getD 0 0 == 0

/-- Go `NewPolyInts`: a `nil` coefficient list gives `[0]`, anything else is
trimmed into canonical form. -/
def NewPolyInts (coeffs : List Int) : Poly :=
  if coeffs = [] then [0] else trim coeffs

/-- The equal-degree loop of Go `Compare`: scan the two coefficient sequences
in parallel from index `0` upward and return the sign of the first differing
comparison (`0` when none differs).  The catch-all alternative is unreachable
in `Compare`, where both sequences have the same length. -/
def cmpCoeffs : Poly → Poly → Int
  | a :: as, b :: bs =>
    if a > b then 1 else if a < b then -1 else cmpCoeffs as bs
  | _, _ => 0

/-- Go `Compare`: the higher degree wins; on equal degrees the coefficient scan
of `cmpCoeffs` decides. -/
def Compare (p q : Poly) : Int :=
  if GetDegree p > GetDegree q then 1
  else if GetDegree p < GetDegree q then -1
  else cmpCoeffs p q

/-- The two copy loops of Go `Add`, for `len q ≤ len p`: index `i` of the
result holds `p[i] + q[i]` below `len q` and `p[i]` above (`getD` supplies the
`0` for the out-of-range `q[i]`). -/
def addRaw (p q : Poly) : Poly :=
  (List.range p.length).map (fun i => p.getD i 0 + q.getD i 0)

/-- Go `Add`: when `Compare p q < 0` the code retries as `q.Add(p, m)`, whose
own comparison then takes the other branch (the swap is inlined here); the
coefficientwise sum is reduced mod `m` when a modulus is given, then trimmed. -/
def Add (p q : Poly) (m : Option Int) : Poly :=
  if Compare p q < 0 then trim ((addRaw q p).map (mapMod m))
  else trim ((addRaw p q).map (mapMod m))

/-- Go `Neg`: a fresh polynomial with every coefficient negated (not trimmed). -/
def Neg (p : Poly) : Poly := p.map (fun c => -c)

/-- Go `Sub`: `p + (-q)`. -/
def Sub (p q : Poly) (m : Option Int) : Poly := Add p (Neg q) m

/-- Go `Clone adjust`.  The slice allocation `make([]*big.Int, len(p)+adjust)`
runs before the sign check, so a length below zero panics at runtime (`none`);
otherwise a negative `adjust` returns the zero polynomial `NewPolyInts [0]`,
and a nonnegative one returns a deep copy left-padded with `adjust` zeros. -/
def Clone (p : Poly) (adjust : Int) : Option Poly :=
  if (p.length : Int) + adjust < 0 then none
  else if adjust < 0 then some (NewPolyInts [0])
  else some (List.replicate adjust.toNat 0 ++ p)

/-- Go `sanitize`: with a modulus, reduce every coefficient with `goMod` — in
Go this writes through the shared backing array of the caller's slice; the
value it leaves there is this function's result.  Without a modulus the
receiver is returned untouched. -/
def sanitize (p : Poly) (m : Option Int) : Poly :=
  match m with
  | none => p
  | some mm => p.map (fun c => goMod c mm)

/-- The nested accumulation loops of Go `Mul`: for each `i < len p`,
`j < len q`, replace `r[i+j]` by `p[i]*q[j] + r[i+j]`, reduced mod `m` when a
modulus is given. -/
def mulLoops (p q : Poly) (m : Option Int) (r0 : Poly) : Poly :=
  (List.range p.length).foldl
    (fun r i =>
      (List.range q.length).foldl
        (fun r' j => r'.set (i + j) (mapMod m (p.getD i 0 * q.getD j 0 + r'.getD (i + j) 0)))
        r)
    r0

/-- Go `Mul`: both operands are sanitized under a modulus, the result buffer of
length `deg p + deg q + 1` starts at zero, the convolution loops fill it, and
the product is trimmed. -/
def Mul (p q : Poly) (m : Option Int) : Poly :=
  let pS := sanitize p m
  let qS := sanitize q m
  let r0 : Poly := List.replicate (GetDegree pS + GetDegree qS + 1).toNat 0
  trim (mulLoops pS qS m r0)

/-- The per-iteration ratio `r` of Go `Div`, from the leading coefficient `b`
of the divisor and the leading coefficient `a` of the running remainder: with
a modulus, `r = ModInverse(b, m) · a mod m` (on a fresh receiver); without one,
`r` is the Euclidean integer quotient `a div b`. -/
def leadRatio (m : Option Int) (b a : Int) : Int :=
  match m with
  | some mm => goMod (modInverse b mm * a) mm
  | none => Int.ediv a b

/-- The `for {}` loop of Go `Div`.  `t` is the running remainder, `quo` the
quotient buffer, `pS` the (sanitized) dividend kept for the abort path.
Fuel exhaustion is `none`.  The final `Bool` records how the call returned:
`true` through the normal `break` (followed by `quo.trim()`/`rem.trim()`),
`false` through the `r == 0` abort that discards all progress. -/
def divLoop (q : Poly) (m : Option Int) (pS : Poly) :
    Nat → Poly → Poly → Option (Poly × Poly × Bool)
  | 0, _, _ => none
  | fuel + 1, quo, t =>
    let qd := GetDegree q
    let td := GetDegree t
    let rd := td - qd
    if rd < 0 ∨ isZero t then some (trim quo, trim t, true)
    else
      let r := leadRatio m (q.getD qd.toNat 0) (t.getD td.toNat 0)
      if r = 0 then some (NewPolyInts [0], pS, false)
      else
        let u := List.replicate rd.toNat 0 ++ q.map (fun c => mapMod m (c * r))
        divLoop q m pS fuel (quo.set rd.toNat r) (trim (Sub t u m))

/-- Go `Div` with explicit fuel for its loop.  Both operands are sanitized
first (in Go this mutates the caller's slices — see `DivEffects`); `q.Clone(rd)`
inside the loop is the zero-padding in `divLoop`'s `u`, and `p.Clone(0)` is the
value copy `pS`.  The early return for `deg p < deg q` or a zero divisor
produces quotient `[0]` and the sanitized dividend as remainder. -/
def DivF (fuel : Nat) (p q : Poly) (m : Option Int) : Option (Poly × Poly × Bool) :=
  let pS := sanitize p m
  let qS := sanitize q m
  if GetDegree pS < GetDegree qS ∨ isZero qS then some (NewPolyInts [0], pS, true)
  else
    let quo0 : Poly := List.replicate (GetDegree pS - GetDegree qS + 1).toNat 0
    divLoop qS m pS fuel quo0 pS

/-- Go `Div`.  Every iteration of the loop either lowers the running
remainder's degree, or is an abort, or is a stalled exact-integer step that the
next iteration turns into an abort, so `2·len p + 2` units of fuel are ample
for any run that terminates in Go. -/
def Div (p q : Poly) (m : Option Int) : Option (Poly × Poly × Bool) :=
  DivF (2 * p.length + 2) p q m

/-- Go `Gcd`, with fuel for the unbounded mutual recursion (`none` = the
recursion has not returned within `fuel` unfoldings — Go simply recurses
forever in that case). -/
def GcdF : Nat → Poly → Poly → Option Int → Option Poly
  | 0, _, _, _ => none
  | fuel + 1, p, q, m =>
    if Compare p q < 0 then GcdF fuel q p m
    else if isZero q then some p
    else
      match Div p q m with
      | some (_, rem, _) => GcdF fuel q rem m
      | none => none

/-- The Go `Gcd` recursion started from `(p, q, m)` never returns, whatever
recursion budget it is given. -/
def gcdDiverges (p q : Poly) (m : Option Int) : Prop := ∀ n, GcdF n p q m = none

/-- Go `Eval`: Horner-free accumulation with a running power of `x`; both the
sum `y` and the power `accx` are reduced every iteration when a modulus is
given. -/
def Eval (p : Poly) (x : Int) (m : Option Int) : Int :=
  (p.foldl
    (fun st c =>
      let y := st.1 + st.2 * c
      let accx := st.2 * x
      match m with
      | none => (y, accx)
      | some mm => (goMod y mm, goMod accx mm))
    ((0 : Int), (1 : Int))).1

/-- Modelled from the spec: Go's probabilistic primality test
`q.ProbablyPrime(100)` (an external `math/big` collaborator), modelled as
(exact) primality of the nonnegative part of `q`. -/
def probablyPrime (q : Int) : Bool := decide (Nat.Prime q.toNat)

/-- Go `GenRandomShares` from `shamir.go`.  `RandomBigInt` and the `Point` /
`Points` types are code of this repository that is not under `src/`; modelled
from the spec: the random source is the stream `rands`, whose `i`-th element is
the `i`-th value `RandomBigInt` returns during the call (the byte-length
argument derived from `q.BitLen()` is absorbed into the stream), and a `Point`
is the pair `(x, y)`.  A composite modulus returns the `nil` sentinel pair,
modelled as `none`.  Each sampled value is reduced mod `q` in place before use,
so a share's `x` is the reduced sample and its `y` is `Eval p x (some q)`. -/
def GenRandomShares (n k : Nat) (q : Int) (rands : Nat → Int) :
    Option (List (Int × Int) × Poly) :=
  if ¬ probablyPrime q then none
  else
    let p : Poly := (List.range k).map (fun i => goMod (rands i) q)
    let ps := (List.range n).map (fun i =>
      let r := goMod (rands (k + i)) q
      (r, Eval p r (some q)))
    some (ps, p)

/-- The observable effect of a Go `Mul` call: the returned product together
with the state `sanitize` leaves in the caller's two argument slices (their
backing arrays are shared with the value receivers `p` and `q`). -/
def MulEffects (p q : Poly) (m : Option Int) : Poly × Poly × Poly :=
  (Mul p q m, sanitize p m, sanitize q m)

/-- The observable effect of a Go `Div` call on the caller: the result and the
state `sanitize` leaves in the caller's two argument slices. -/
def DivEffects (p q : Poly) (m : Option Int) :
    Option (Poly × Poly × Bool) × Poly × Poly :=
  (Div p q m, sanitize p m, sanitize q m)

/-- The representation invariant of the spec's data model (§3): a polynomial is
never the empty sequence, and when its length exceeds `1` its final (leading)
coefficient is nonzero. -/
def canonP (p : Poly) : Prop := p ≠ [] ∧ (1 < p.length → p.getD (p.length - 1) 0 ≠ 0)

instance (p : Poly) : Decidable (canonP p) := by
  unfold canonP
  infer_instance

/-- Mirror of `divLoop` in no-modulus mode that records only whether every
iteration's leading-coefficient ratio was exact (the divisor coefficient
divides the leading coefficient of the running remainder); the state evolves
exactly as in `divLoop`.  Fuel exhaustion reports `true` (no failure seen). -/
def divExactLoop (q : Poly) : Nat → Poly → Bool
  | 0, _ => true
  | fuel + 1, t =>
    let qd := GetDegree q
    let td := GetDegree t
    let rd := td - qd
    if rd < 0 ∨ isZero t then true
    else
      let a := t.getD td.toNat 0
      let b := q.getD qd.toNat 0
      if b ∣ a then
        let r := Int.ediv a b
        let u := List.replicate rd.toNat 0 ++ q.map (fun c => mapMod none (c * r))
        divExactLoop q fuel (trim (Sub t u none))
      else false

/-- Whether every leading-coefficient ratio met by `DivF fuel p q none` is an
exact integer ("the true ratio of leading coefficients is an integer"). -/
def divExactF (fuel : Nat) (p q : Poly) : Bool :=
  if GetDegree p < GetDegree q ∨ isZero q then true
  else divExactLoop q fuel p

/-- The degree-`k` coefficient of the mathematical product of two coefficient
sequences; used to state the division identity `quo·Q + rem ≡ P`. -/
def coeffMul (a b : Poly) (k : Nat) : Int :=
  ∑ i ∈ Finset.range (k + 1), a.getD i 0 * b.getD (k - i) 0

/-- Coefficient congruence: plain equality without a modulus, congruence
modulo `|m|` with one. -/
def cong (m : Option Int) (x y : Int) : Prop := mapMod m x = mapMod m y

/-- Soundness statement for one fuel level of `divLoop`: any run that returns
through the normal break, started from a quotient buffer that is still zero at
all positions up to the current offset and a state satisfying the division
invariant `quo·q + t ≡ pS`, ends in a state satisfying the invariant with a
remainder that is zero or of degree below `deg q`. -/
def LoopGood (q : Poly) (m : Option Int) (pS : Poly) (fuel : Nat) : Prop :=
  ∀ quo t quo' rem,
    divLoop q m pS fuel quo t = some (quo', rem, true) →
    (∀ i : Nat, (i : Int) ≤ GetDegree t - GetDegree q → quo.getD i 0 = 0) →
    GetDegree t - GetDegree q < (quo.length : Int) →
    (∀ k, cong m (coeffMul quo q k + t.getD k 0) (pS.getD k 0)) →
    (∀ k, cong m (coeffMul quo' q k + rem.getD k 0) (pS.getD k 0)) ∧
      (rem = [0] ∨ GetDegree rem < GetDegree q)

/-- Modelled from the spec's words (§4.2), for the comparison claims: scan a
list of coefficient pairs and return the sign of the first differing pair. -/
def specScanPairs : List (Int × Int) → Int
  | [] => 0
  | ab :: rest => if ab.1 = ab.2 then specScanPairs rest else if ab.1 > ab.2 then 1 else -1

/-- Modelled from the spec's words: compare primarily by degree, then by
coefficients from the highest degree down to the lowest. -/
def compareHighFirst (p q : Poly) : Int :=
  if GetDegree p > GetDegree q then 1
  else if GetDegree p < GetDegree q then -1
  else specScanPairs (List.zip p.reverse q.reverse)

/-- The spec's comparison amended to match the code: compare primarily by
degree, then by coefficients from the lowest degree up to the highest. -/
def compareLowFirst (p q : Poly) : Int :=
  if GetDegree p > GetDegree q then 1
  else if GetDegree p < GetDegree q then -1
  else specScanPairs (List.zip p q)

/-! ### `getD` helpers -/

theorem getD_eq_zero_of_le (l : Poly) {k : Nat} (h : l.length ≤ k) : l.getD k 0 = 0 := by
  rw [List.getD_eq_getElem?_getD, List.getElem?_eq_none h]
  rfl

theorem lt_length_of_getD_ne (l : Poly) {k : Nat} (h : l.getD k 0 ≠ 0) : k < l.length := by
  by_contra hk
  exact h (getD_eq_zero_of_le l (by omega))

theorem getD_map0 (f : Int → Int) (h0 : f 0 = 0) (l : Poly) (k : Nat) :
    (l.map f).getD k 0 = f (l.getD k 0) := by
  rw [List.getD_eq_getElem?_getD, List.getD_eq_getElem?_getD, List.getElem?_map]
  cases l[k]? with
  | none => simp [h0]
  | some a => rfl

theorem getD_replicate0 (n k : Nat) : (List.replicate n (0 : Int)).getD k 0 = 0 := by
  rw [List.getD_eq_getElem?_getD, List.getElem?_replicate]
  by_cases h : k < n <;> simp [h]

theorem getD_append (l₁ l₂ : Poly) (k : Nat) :
    (l₁ ++ l₂).getD k 0 = if k < l₁.length then l₁.getD k 0 else l₂.getD (k - l₁.length) 0 := by
  rw [List.getD_eq_getElem?_getD, List.getElem?_append]
  by_cases h : k < l₁.length <;> simp [h, List.getD_eq_getElem?_getD]

theorem getD_set (l : Poly) (n : Nat) (v : Int) (k : Nat) :
    (l.set n v).getD k 0 = if k = n ∧ n < l.length then v else l.getD k 0 := by
  rw [List.getD_eq_getElem?_getD, List.getD_eq_getElem?_getD, List.getElem?_set]
  by_cases h1 : n = k
  · subst h1
    by_cases h2 : n < l.length
    · simp [h2]
    · simp [h2, List.getElem?_eq_none (Nat.le_of_not_lt h2)]
  · have hne : ¬(k = n ∧ n < l.length) := fun h => h1 h.1.symm
    simp [h1, hne]

theorem getD_take (l : Poly) (n k : Nat) (h : k < n) : (l.take n).getD k 0 = l.getD k 0 := by
  rw [List.getD_eq_getElem?_getD, List.getD_eq_getElem?_getD, List.getElem?_take, if_pos h]

theorem getD_range_map (f : Nat → Int) (n k : Nat) :
    ((List.range n).map f).getD k 0 = if k < n then f k else 0 := by
  rw [List.getD_eq_getElem?_getD, List.getElem?_map]
  by_cases h : k < n
  · rw [List.getElem?_range h, if_pos h]
    rfl
  · rw [List.getElem?_eq_none (by simpa using Nat.le_of_not_lt h), if_neg h]
    rfl

/-! ### `trim` lemmas -/

theorem lastNonzeroFrom_zero (p : Poly) : lastNonzeroFrom p 0 = 0 := rfl

theorem lastNonzeroFrom_succ (p : Poly) (n : Nat) :
    lastNonzeroFrom p (n + 1) =
      if p.getD (n + 1) 0 ≠ 0 then n + 1 else lastNonzeroFrom p n := rfl

theorem lastNonzeroFrom_le (p : Poly) : ∀ i, lastNonzeroFrom p i ≤ i := by
  intro i
  induction i with
  | zero => simp [lastNonzeroFrom_zero]
  | succ n ih =>
    rw [lastNonzeroFrom_succ]
    by_cases h : p.getD (n + 1) 0 ≠ 0
    · rw [if_pos h]
    · rw [if_neg h]
      omega

theorem lastNonzeroFrom_sound (p : Poly) :
    ∀ i j, lastNonzeroFrom p i < j → j ≤ i → p.getD j 0 = 0 := by
  intro i
  induction i with
  | zero => intro j h1 h2; omega
  | succ n ih =>
    intro j h1 h2
    rw [lastNonzeroFrom_succ] at h1
    by_cases h : p.getD (n + 1) 0 ≠ 0
    · rw [if_pos h] at h1
      omega
    · rw [if_neg h] at h1
      push_neg at h
      rcases Nat.lt_or_ge j (n + 1) with hj | hj
      · exact ih j h1 (by omega)
      · have hj1 : j = n + 1 := by omega
        rw [hj1]
        exact h

theorem lastNonzeroFrom_pos_nonzero (p : Poly) :
    ∀ i, 1 ≤ lastNonzeroFrom p i → p.getD (lastNonzeroFrom p i) 0 ≠ 0 := by
  intro i
  induction i with
  | zero => simp [lastNonzeroFrom_zero]
  | succ n ih =>
    rw [lastNonzeroFrom_succ]
    by_cases h : p.getD (n + 1) 0 ≠ 0
    · rw [if_pos h]
      intro _
      exact h
    · rw [if_neg h]
      exact ih

theorem length_trim_le (p : Poly) : (trim p).length ≤ p.length := by
  simp only [trim, List.length_take]
  exact Nat.min_le_right _ _

theorem length_trim (p : Poly) (hp : p ≠ []) :
    (trim p).length = lastNonzeroFrom p (p.length - 1) + 1 := by
  have hlen : 1 ≤ p.length := List.length_pos.mpr hp
  have hle := lastNonzeroFrom_le p (p.length - 1)
  simp only [trim, List.length_take]
  omega

theorem trim_ne_nil (p : Poly) (hp : p ≠ []) : trim p ≠ [] := by
  have := length_trim p hp
  intro h
  rw [h] at this
  simp at this

theorem trim_getD (p : Poly) (k : Nat) : (trim p).getD k 0 = p.getD k 0 := by
  by_cases hk : k < lastNonzeroFrom p (p.length - 1) + 1
  · exact getD_take p _ k hk
  · push_neg at hk
    have htrlen : (trim p).length ≤ lastNonzeroFrom p (p.length - 1) + 1 := by
      simp only [trim, List.length_take]
      exact Nat.min_le_left _ _
    have h1 : (trim p).getD k 0 = 0 := getD_eq_zero_of_le _ (by omega)
    have h2 : p.getD k 0 = 0 := by
      rcases Nat.lt_or_ge k p.length with hkp | hkp
      · exact lastNonzeroFrom_sound p (p.length - 1) k (by omega) (by omega)
      · exact getD_eq_zero_of_le _ hkp
    rw [h1, h2]

theorem canonP_trim (p : Poly) (hp : p ≠ []) : canonP (trim p) := by
  refine ⟨trim_ne_nil p hp, ?_⟩
  intro hlen
  have hL := length_trim p hp
  have h1 : 1 ≤ lastNonzeroFrom p (p.length - 1) := by omega
  have h2 := lastNonzeroFrom_pos_nonzero p (p.length - 1) h1
  rw [hL, Nat.add_sub_cancel, trim_getD]
  exact h2

theorem trim_eq_self (p : Poly) (hp : canonP p) : trim p = p := by
  obtain ⟨hne, hlast⟩ := hp
  have hlen : 1 ≤ p.length := List.length_pos.mpr hne
  rcases Nat.lt_or_ge 1 p.length with h1 | h1
  · have hnz := hlast h1
    obtain ⟨m, hm⟩ : ∃ m, p.length - 1 = m + 1 := ⟨p.length - 2, by omega⟩
    have hlast' : lastNonzeroFrom p (p.length - 1) = p.length - 1 := by
      rw [hm, lastNonzeroFrom_succ, if_pos (by rw [← hm]; exact hnz)]
    unfold trim
    rw [hlast']
    exact List.take_of_length_le (by omega)
  · have hl1 : p.length = 1 := by omega
    unfold trim
    rw [hl1]
    exact List.take_of_length_le (by omega)

theorem trim_idem (p : Poly) : trim (trim p) = trim p := by
  rcases eq_or_ne p [] with h | h
  · rw [h]
    rfl
  · exact trim_eq_self _ (canonP_trim p h)

/-! ### `isZero` and `GetDegree` lemmas -/

theorem isZero_iff (t : Poly) : isZero t = true ↔ t.length = 1 ∧ t.getD 0 0 = 0 := by
  simp only [isZero, GetDegree, Bool.and_eq_true, beq_iff_eq]
  constructor
  · rintro ⟨h1, h2⟩
    exact ⟨by omega, h2⟩
  · rintro ⟨h1, h2⟩
    exact ⟨by omega, h2⟩

theorem eq_zero_poly_of_isZero (t : Poly) (h : isZero t = true) : t = [0] := by
  obtain ⟨h1, h2⟩ := (isZero_iff t).mp h
  obtain ⟨a, ha⟩ := List.length_eq_one.mp h1
  subst ha
  simpa using h2

theorem isZero_false_getD (t : Poly) (h : isZero t = false) (hl : t.length = 1) :
    t.getD 0 0 ≠ 0 := by
  intro h0
  rw [(isZero_iff t).mpr ⟨hl, h0⟩] at h
  cases h

/-! ### congruence lemmas -/

theorem cong_some_iff (mm x y : Int) :
    cong (some mm) x y ↔ Int.ModEq (mm.natAbs : Int) x y := Iff.rfl

theorem cong_refl (m : Option Int) (x : Int) : cong m x x := rfl

theorem cong_symm {m : Option Int} {x y : Int} (h : cong m x y) : cong m y x := h.symm

theorem cong_trans {m : Option Int} {x y z : Int} (h1 : cong m x y) (h2 : cong m y z) :
    cong m x z := h1.trans h2

theorem cong_mapMod (m : Option Int) (x : Int) : cong m (mapMod m x) x := by
  cases m with
  | none => rfl
  | some mm =>
    show goMod (goMod x mm) mm = goMod x mm
    exact Int.emod_emod_of_dvd x dvd_rfl

theorem cong_add {m : Option Int} {a b c d : Int} (h1 : cong m a b) (h2 : cong m c d) :
    cong m (a + c) (b + d) := by
  cases m with
  | none =>
    simp only [cong, mapMod] at h1 h2 ⊢
    rw [h1, h2]
  | some mm =>
    exact (cong_some_iff ..).mpr (Int.ModEq.add ((cong_some_iff ..).mp h1) ((cong_some_iff ..).mp h2))

theorem cong_sub {m : Option Int} {a b c d : Int} (h1 : cong m a b) (h2 : cong m c d) :
    cong m (a - c) (b - d) := by
  cases m with
  | none =>
    simp only [cong, mapMod] at h1 h2 ⊢
    rw [h1, h2]
  | some mm =>
    exact (cong_some_iff ..).mpr (Int.ModEq.sub ((cong_some_iff ..).mp h1) ((cong_some_iff ..).mp h2))

theorem cong_mul {m : Option Int} {a b c d : Int} (h1 : cong m a b) (h2 : cong m c d) :
    cong m (a * c) (b * d) := by
  cases m with
  | none =>
    simp only [cong, mapMod] at h1 h2 ⊢
    rw [h1, h2]
  | some mm =>
    exact (cong_some_iff ..).mpr (Int.ModEq.mul ((cong_some_iff ..).mp h1) ((cong_some_iff ..).mp h2))

theorem cong_sum {m : Option Int} {s : Finset Nat} {f g : Nat → Int}
    (h : ∀ i ∈ s, cong m (f i) (g i)) :
    cong m (∑ i ∈ s, f i) (∑ i ∈ s, g i) := by
  cases m with
  | none =>
    show mapMod none _ = mapMod none _
    simp only [mapMod]
    exact Finset.sum_congr rfl h
  | some mm =>
    show (∑ i ∈ s, f i) % (mm.natAbs : Int) = (∑ i ∈ s, g i) % (mm.natAbs : Int)
    rw [Finset.sum_int_mod s _ f, Finset.sum_int_mod s _ g]
    congr 1
    exact Finset.sum_congr rfl h

/-! ### `Compare` lemmas -/

theorem cmpCoeffs_antisymm : ∀ p q : Poly, cmpCoeffs q p = -cmpCoeffs p q
  | [], [] => rfl
  | [], _ :: _ => rfl
  | _ :: _, [] => rfl
  | a :: as, b :: bs => by
    show (if b > a then 1 else if b < a then (-1 : Int) else cmpCoeffs bs as)
      = -(if a > b then 1 else if a < b then (-1 : Int) else cmpCoeffs as bs)
    rcases lt_trichotomy a b with h | h | h
    · rw [if_pos (show b > a from h), if_neg (show ¬ a > b from lt_asymm h), if_pos h]
      norm_num
    · subst h
      rw [if_neg (lt_irrefl a), if_neg (lt_irrefl a), if_neg (lt_irrefl a), if_neg (lt_irrefl a)]
      exact cmpCoeffs_antisymm as bs
    · rw [if_neg (show ¬ b > a from lt_asymm h), if_pos (show b < a from h),
        if_pos (show a > b from h)]

theorem compare_antisymm (p q : Poly) : Compare q p = -Compare p q := by
  unfold Compare
  rcases lt_trichotomy (GetDegree p) (GetDegree q) with h | h | h
  · rw [if_pos (show GetDegree q > GetDegree p from h),
      if_neg (show ¬ GetDegree p > GetDegree q from lt_asymm h), if_pos h]
    norm_num
  · rw [h, if_neg (lt_irrefl _), if_neg (lt_irrefl _), if_neg (lt_irrefl _),
      if_neg (lt_irrefl _)]
    exact cmpCoeffs_antisymm p q
  · rw [if_neg (show ¬ GetDegree q > GetDegree p from lt_asymm h),
      if_pos (show GetDegree q < GetDegree p from h),
      if_pos (show GetDegree p > GetDegree q from h)]

theorem length_eq_of_degree_eq {p q : Poly} (h : GetDegree p = GetDegree q) :
    p.length = q.length := by
  simp only [GetDegree] at h
  omega

theorem length_le_of_compare_lt {p q : Poly} (h : Compare p q < 0) : p.length ≤ q.length := by
  unfold Compare at h
  rcases lt_trichotomy (GetDegree p) (GetDegree q) with hd | hd | hd
  · simp only [GetDegree] at hd
    omega
  · exact Nat.le_of_eq (length_eq_of_degree_eq hd)
  · rw [if_pos hd] at h
    omega

theorem length_le_of_compare_ge {p q : Poly} (h : ¬ Compare p q < 0) : q.length ≤ p.length := by
  unfold Compare at h
  rcases lt_trichotomy (GetDegree p) (GetDegree q) with hd | hd | hd
  · rw [if_neg (not_lt_of_gt hd), if_pos hd] at h
    omega
  · exact Nat.le_of_eq (length_eq_of_degree_eq hd).symm
  · simp only [GetDegree] at hd
    omega

/-! ### `Add`, `Sub`, `sanitize` lemmas -/

theorem mapMod_zero (m : Option Int) : mapMod m 0 = 0 := by
  cases m with
  | none => rfl
  | some mm => exact Int.zero_emod _

theorem addRaw_getD {p q : Poly} (h : q.length ≤ p.length) (k : Nat) :
    (addRaw p q).getD k 0 = p.getD k 0 + q.getD k 0 := by
  unfold addRaw
  rw [getD_range_map]
  by_cases hk : k < p.length
  · rw [if_pos hk]
  · rw [if_neg hk]
    push_neg at hk
    rw [getD_eq_zero_of_le p hk, getD_eq_zero_of_le q (le_trans h hk)]
    norm_num

theorem Add_getD (p q : Poly) (m : Option Int) (k : Nat) :
    (Add p q m).getD k 0 = mapMod m (p.getD k 0 + q.getD k 0) := by
  unfold Add
  by_cases h : Compare p q < 0
  · rw [if_pos h, trim_getD, getD_map0 _ (mapMod_zero m),
      addRaw_getD (length_le_of_compare_lt h), add_comm]
  · rw [if_neg h, trim_getD, getD_map0 _ (mapMod_zero m),
      addRaw_getD (length_le_of_compare_ge h)]

theorem Neg_getD (q : Poly) (k : Nat) : (Neg q).getD k 0 = -(q.getD k 0) := by
  unfold Neg
  rw [getD_map0 _ (by norm_num)]

theorem Sub_getD (p q : Poly) (m : Option Int) (k : Nat) :
    (Sub p q m).getD k 0 = mapMod m (p.getD k 0 - q.getD k 0) := by
  unfold Sub
  rw [Add_getD, Neg_getD, sub_eq_add_neg]

theorem length_addRaw (p q : Poly) : (addRaw p q).length = p.length := by
  simp [addRaw]

theorem length_Neg (q : Poly) : (Neg q).length = q.length := by
  simp [Neg]

theorem length_Add_le (p q : Poly) (m : Option Int) :
    (Add p q m).length ≤ max p.length q.length := by
  unfold Add
  by_cases h : Compare p q < 0
  · rw [if_pos h]
    calc (trim ((addRaw q p).map (mapMod m))).length
        ≤ ((addRaw q p).map (mapMod m)).length := length_trim_le _
      _ = q.length := by simp [length_addRaw]
      _ ≤ max p.length q.length := le_max_right _ _
  · rw [if_neg h]
    calc (trim ((addRaw p q).map (mapMod m))).length
        ≤ ((addRaw p q).map (mapMod m)).length := length_trim_le _
      _ = p.length := by simp [length_addRaw]
      _ ≤ max p.length q.length := le_max_left _ _

theorem Add_ne_nil (p q : Poly) (m : Option Int) (h : p ≠ []) : Add p q m ≠ [] := by
  have hp : 1 ≤ p.length := List.length_pos.mpr h
  unfold Add
  by_cases hc : Compare p q < 0
  · have hq : 1 ≤ q.length := le_trans hp (length_le_of_compare_lt hc)
    rw [if_pos hc]
    apply trim_ne_nil
    intro hnil
    have hlen := congrArg List.length hnil
    simp only [List.length_map, length_addRaw, List.length_nil] at hlen
    omega
  · rw [if_neg hc]
    apply trim_ne_nil
    intro hnil
    have hlen := congrArg List.length hnil
    simp only [List.length_map, length_addRaw, List.length_nil] at hlen
    omega

theorem length_Sub_le (p q : Poly) (m : Option Int) :
    (Sub p q m).length ≤ max p.length q.length := by
  unfold Sub
  calc (Add p (Neg q) m).length ≤ max p.length (Neg q).length := length_Add_le _ _ _
    _ = max p.length q.length := by rw [length_Neg]

theorem sanitize_none (p : Poly) : sanitize p none = p := rfl

theorem length_sanitize (p : Poly) (m : Option Int) : (sanitize p m).length = p.length := by
  cases m <;> simp [sanitize]

theorem GetDegree_sanitize (p : Poly) (m : Option Int) :
    GetDegree (sanitize p m) = GetDegree p := by
  simp [GetDegree, length_sanitize]

theorem sanitize_getD (p : Poly) (m : Option Int) (k : Nat) :
    (sanitize p m).getD k 0 = mapMod m (p.getD k 0) := by
  cases m with
  | none => rfl
  | some mm => exact getD_map0 (fun c => goMod c mm) (Int.zero_emod _) p k

/-! ### `coeffMul` lemmas -/

theorem getD_zero_poly (i : Nat) : ([0] : Poly).getD i 0 = 0 := by
  cases i with
  | zero => rfl
  | succ n => rw [List.getD_cons_succ, List.getD_nil]

theorem coeffMul_zero_left {a : Poly} (h : ∀ i, a.getD i 0 = 0) (b : Poly) (k : Nat) :
    coeffMul a b k = 0 := by
  unfold coeffMul
  apply Finset.sum_eq_zero
  intro i _
  rw [h i, zero_mul]

theorem coeffMul_trim_left (a b : Poly) (k : Nat) :
    coeffMul (trim a) b k = coeffMul a b k := by
  unfold coeffMul
  apply Finset.sum_congr rfl
  intro i _
  rw [trim_getD]

theorem coeffMul_cong_right {m : Option Int} (a : Poly) {b b' : Poly}
    (h : ∀ i, cong m (b.getD i 0) (b'.getD i 0)) (k : Nat) :
    cong m (coeffMul a b k) (coeffMul a b' k) := by
  unfold coeffMul
  exact cong_sum fun i _ => cong_mul (cong_refl _ _) (h (k - i))

theorem coeffMul_set {a : Poly} {n : Nat} (hn : n < a.length) (v : Int) (b : Poly) (k : Nat) :
    coeffMul (a.set n v) b k =
      coeffMul a b k + (if n ≤ k then (v - a.getD n 0) * b.getD (k - n) 0 else 0) := by
  by_cases hk : n ≤ k
  · rw [if_pos hk]
    have key : ∀ i ∈ Finset.range (k + 1),
        (a.set n v).getD i 0 * b.getD (k - i) 0 - a.getD i 0 * b.getD (k - i) 0 =
          if i = n then (v - a.getD n 0) * b.getD (k - n) 0 else 0 := by
      intro i _
      by_cases hin : i = n
      · subst hin
        rw [if_pos rfl, getD_set, if_pos ⟨rfl, hn⟩, sub_mul]
      · rw [if_neg hin, getD_set, if_neg (fun hh => hin hh.1), sub_self]
    have h1 : (∑ i ∈ Finset.range (k + 1), (a.set n v).getD i 0 * b.getD (k - i) 0)
        - (∑ i ∈ Finset.range (k + 1), a.getD i 0 * b.getD (k - i) 0)
        = ∑ i ∈ Finset.range (k + 1),
            ((a.set n v).getD i 0 * b.getD (k - i) 0 - a.getD i 0 * b.getD (k - i) 0) :=
      Finset.sum_sub_distrib.symm
    rw [Finset.sum_congr rfl key, Finset.sum_ite_eq' (Finset.range (k + 1)) n,
      if_pos (Finset.mem_range.mpr (by omega))] at h1
    unfold coeffMul
    linarith
  · rw [if_neg hk, add_zero]
    unfold coeffMul
    apply Finset.sum_congr rfl
    intro i hi
    rw [getD_set, if_neg]
    rintro ⟨rfl, -⟩
    rw [Finset.mem_range] at hi
    omega

theorem compare_eq_zero_length {p q : Poly} (h : Compare p q = 0) : p.length = q.length := by
  unfold Compare at h
  rcases lt_trichotomy (GetDegree p) (GetDegree q) with hd | hd | hd
  · rw [if_neg (show ¬ GetDegree p > GetDegree q from lt_asymm hd), if_pos hd] at h
    omega
  · exact length_eq_of_degree_eq hd
  · rw [if_pos (show GetDegree p > GetDegree q from hd)] at h
    omega

/-- C7: `add` is commutative: for all polynomials `p`, `q` and every optional
modulus `m` (including `none`), `Add p q m` equals `Add q p m` coefficientwise
(here: as equal coefficient lists), irrespective of the internal operand
reordering performed via `Compare`. -/
theorem c7_add_commutative : ∀ (p q : Poly) (m : Option Int), Add p q m = Add q p m := by
  intro p q m
  unfold Add
  rcases lt_trichotomy (Compare p q) 0 with h | h | h
  · rw [if_pos h, if_neg (by rw [compare_antisymm]; omega)]
  · have hlen := compare_eq_zero_length h
    rw [if_neg (by omega), if_neg (by rw [compare_antisymm, h]; norm_num)]
    have hraw : addRaw p q = addRaw q p := by
      unfold addRaw
      rw [hlen]
      exact List.map_congr_left fun i _ => by rw [add_comm]
    rw [hraw]
  · rw [if_neg (by omega), if_pos (by rw [compare_antisymm]; omega)]

theorem cmpCoeffs_eq_specScan : ∀ p q : Poly, p.length = q.length →
    cmpCoeffs p q = specScanPairs (List.zip p q)
  | [], [], _ => rfl
  | [], _ :: _, h => by simp at h
  | _ :: _, [], h => by simp at h
  | a :: as, b :: bs, h => by
    show (if a > b then 1 else if a < b then (-1 : Int) else cmpCoeffs as bs)
      = if a = b then specScanPairs (List.zip as bs) else if a > b then 1 else -1
    rcases lt_trichotomy a b with hab | hab | hab
    · rw [if_neg (show ¬ a > b from lt_asymm hab), if_pos hab, if_neg (ne_of_lt hab),
        if_neg (show ¬ a > b from lt_asymm hab)]
    · subst hab
      rw [if_neg (lt_irrefl a), if_neg (lt_irrefl a), if_pos rfl]
      exact cmpCoeffs_eq_specScan as bs (by simpa using h)
    · rw [if_pos (show a > b from hab), if_neg (ne_of_gt hab), if_pos (show a > b from hab)]

/-- C5 (amended): `Compare` orders primarily by degree (higher degree is
greater), and on equal degrees it returns the sign of the first differing
coefficient pair scanned from the lowest degree upward (not from the highest
downward, as the spec claims). -/
theorem c5_compare_low_first : ∀ p q : Poly, Compare p q = compareLowFirst p q := by
  intro p q
  unfold Compare compareLowFirst
  rcases lt_trichotomy (GetDegree p) (GetDegree q) with h | h | h
  · rw [if_neg (show ¬ GetDegree p > GetDegree q from lt_asymm h), if_pos h,
      if_neg (show ¬ GetDegree p > GetDegree q from lt_asymm h), if_pos h]
  · have h1 : ¬ GetDegree p > GetDegree q := by rw [h]; exact lt_irrefl _
    have h2 : ¬ GetDegree p < GetDegree q := by rw [h]; exact lt_irrefl _
    rw [if_neg h1, if_neg h2, if_neg h1, if_neg h2]
    exact cmpCoeffs_eq_specScan p q (length_eq_of_degree_eq h)
  · rw [if_pos (show GetDegree p > GetDegree q from h),
      if_pos (show GetDegree p > GetDegree q from h)]

/-- C5 counterexample: on the equal-degree pair `P = x + 2`, `Q = 2x + 1` the
code's `Compare` (scanning coefficients from the lowest degree) returns `1`,
while the spec's highest-to-lowest scan would return `-1`. -/
theorem c5_counterexample :
    Compare [2, 1] [1, 2] = 1 ∧ compareHighFirst [2, 1] [1, 2] = -1 := by
  decide

/-- C3 (amended): if deg(P) < deg(Q) or Q reduces to the zero polynomial (both
tested after the operands are sanitized, which changes nothing when no modulus
is supplied), divide returns quotient `[0]` and as remainder the sanitized
`P` — exactly `P` when no modulus is given, `P` with each coefficient reduced
mod `m` when one is; the flag records a normal completion.  In particular
`Div p [0] none = some ([0], p, true)` for every `p`. -/
theorem c3_divide_early_return : ∀ (p q : Poly) (m : Option Int),
    GetDegree (sanitize p m) < GetDegree (sanitize q m) ∨ isZero (sanitize q m) = true →
    Div p q m = some (NewPolyInts [0], sanitize p m, true) := by
  intro p q m h
  unfold Div DivF
  dsimp only
  rw [if_pos h]

/-- C3 counterexample: with the prime modulus `5`, dividing `P = [7]` by
`Q = x` hits the `deg P < deg Q` early return, but the remainder is the
sanitized `[2]`, not the original `P = [7]` — so "remainder = P unchanged"
fails once a modulus is supplied. -/
theorem c3_counterexample :
    Div [7] [0, 1] (some 5) = some (NewPolyInts [0], [2], true) ∧ ([2] : Poly) ≠ [7] := by
  decide

/-- C4: the claim (and the code's own doc comment) says a negative clone shift
silently yields the zero polynomial; but `make([]*big.Int, len(p)+adjust)` runs
before the sign check, so any shift below `-len(p)` panics (modelled `none`).
Shifts in `[-len(p), -1]` do reach the documented zero-polynomial return, and
nonnegative shifts left-pad a deep copy. -/
theorem c4_clone_negative_shift :
    Clone [1] (-2) = none ∧ Clone [1] (-1) = some [0] ∧ Clone [1, 2] 2 = some [0, 0, 1, 2] := by
  decide

/-- C6 (amended): modelling Go's in-place `sanitize` of the shared backing
arrays, `Mul` and `Div` leave both operands exactly in state `sanitize · m`:
untouched when no modulus is supplied (as are `Add`, `Sub`, `Eval`, which
allocate fresh storage), but reduced coefficientwise when a modulus is — an
operand whose coefficients already lie in `[0, mm)` is left unchanged even
then. -/
theorem c6_mutation_boundary : ∀ (p q : Poly) (m : Option Int) (mm : Int),
    (MulEffects p q none).2.1 = p ∧ (MulEffects p q none).2.2 = q ∧
    (DivEffects p q none).2.1 = p ∧ (DivEffects p q none).2.2 = q ∧
    (MulEffects p q m).2.1 = sanitize p m ∧ (MulEffects p q m).2.2 = sanitize q m ∧
    (DivEffects p q m).2.1 = sanitize p m ∧ (DivEffects p q m).2.2 = sanitize q m ∧
    ((∀ c ∈ p, 0 ≤ c ∧ c < mm) → sanitize p (some mm) = p) := by
  intro p q m mm
  refine ⟨rfl, rfl, rfl, rfl, rfl, rfl, rfl, rfl, ?_⟩
  intro h
  show p.map (fun c => goMod c mm) = p
  have hall : ∀ c ∈ p, (fun c => goMod c mm) c = id c := by
    intro c hc
    obtain ⟨h0, h1⟩ := h c hc
    have hmm : (mm.natAbs : Int) = mm := Int.natAbs_of_nonneg (le_of_lt (lt_of_le_of_lt h0 h1))
    show goMod c mm = c
    unfold goMod
    rw [hmm]
    exact Int.emod_eq_of_lt h0 h1
  rw [List.map_congr_left hall, List.map_id]

/-- C6 counterexample: `Mul [5] [1] (some 3)` leaves the caller's `P` slice
holding `[2]` (its coefficient reduced mod 3 in place by `sanitize`), so `P`'s
coefficient sequence is changed by `Mul` with a non-nil modulus. -/
theorem c6_counterexample :
    (MulEffects [5] [1] (some 3)).2.1 = [2] ∧ ([2] : Poly) ≠ [5] := by
  decide

/-- C3 witness: the amended early-return theorem applied at `P = [7]`,
`Q = x`, `m = 5`, a concrete instance of the `deg P < deg Q` case. -/
theorem c3_witness :
    Div [7] [0, 1] (some 5) = some (NewPolyInts [0], sanitize [7] (some 5), true) :=
  c3_divide_early_return [7] [0, 1] (some 5) (by decide)

/-- C6 witness: the mutation-boundary theorem applied at `P = [0, 1]`,
`Q = [1]`, `mm = 3`, whose coefficients already lie in `[0, 3)`, so `sanitize`
leaves `P` unchanged. -/
theorem c6_witness : sanitize [0, 1] (some 3) = [0, 1] :=
  (c6_mutation_boundary [0, 1] [1] none 3).2.2.2.2.2.2.2.2 (by decide)

/-! ### `divLoop` unfolding equations -/

theorem divLoop_zero (q : Poly) (m : Option Int) (pS quo t : Poly) :
    divLoop q m pS 0 quo t = none := rfl

theorem divLoop_succ (q : Poly) (m : Option Int) (pS quo t : Poly) (fuel : Nat) :
    divLoop q m pS (fuel + 1) quo t =
      if GetDegree t - GetDegree q < 0 ∨ isZero t then some (trim quo, trim t, true)
      else
        let r := leadRatio m (q.getD (GetDegree q).toNat 0) (t.getD (GetDegree t).toNat 0)
        if r = 0 then some (NewPolyInts [0], pS, false)
        else
          divLoop q m pS fuel (quo.set (GetDegree t - GetDegree q).toNat r)
            (trim (Sub t (List.replicate (GetDegree t - GetDegree q).toNat 0 ++
              q.map (fun c => mapMod m (c * r))) m)) := rfl

/-! ### arithmetic helpers for the division loop -/

theorem emod_lt_abs (a : Int) {b : Int} (hb : b ≠ 0) : a % b < |b| := by
  rcases lt_or_gt_of_ne hb with hneg | hpos
  · have h1 : a % b = a % (-b) := by
      conv_lhs => rw [show b = -(-b) from (neg_neg b).symm]
      rw [Int.emod_neg]
    rw [h1, abs_of_neg hneg]
    exact Int.emod_lt_of_pos a (by omega)
  · rw [abs_of_pos hpos]
    exact Int.emod_lt_of_pos a hpos

theorem ediv_eq_zero_of_bounds {a b : Int} (hb : b ≠ 0) (h0 : 0 ≤ a) (h1 : a < |b|) :
    Int.ediv a b = 0 := by
  show a / b = 0
  rcases lt_or_gt_of_ne hb with hneg | hpos
  · have h2 : a / b = -(a / (-b)) := by
      conv_lhs => rw [show b = -(-b) from (neg_neg b).symm]
      exact Int.ediv_neg a (-b)
    rw [h2, Int.ediv_eq_zero_of_lt h0 (by rwa [abs_of_neg hneg] at h1), neg_zero]
  · exact Int.ediv_eq_zero_of_lt h0 (by rwa [abs_of_pos hpos] at h1)

theorem ediv_ne_imp {a b : Int} (h : Int.ediv a b ≠ 0) : a ≠ 0 ∧ b ≠ 0 := by
  constructor
  · rintro rfl
    exact h (Int.zero_ediv b)
  · rintro rfl
    exact h (Int.ediv_zero a)

theorem modInverse_zero_of_gcd_ne {b mm : Int} (hg : Int.gcd b mm ≠ 1) :
    modInverse b mm = 0 := by
  rw [modInverse, if_neg hg]

theorem goMod_one_eq_zero {mm : Int} (h1 : mm.natAbs = 1) (x : Int) : goMod x mm = 0 := by
  unfold goMod
  rw [h1]
  exact Int.emod_one x

theorem modInverse_r_ne {mm a b : Int} (hr : goMod (modInverse b mm * a) mm ≠ 0) :
    a ≠ 0 ∧ b ≠ 0 := by
  constructor
  · rintro rfl
    rw [mul_zero] at hr
    exact hr (Int.zero_emod _)
  · rintro rfl
    apply hr
    by_cases hg : Int.gcd 0 mm = 1
    · have h1 : mm.natAbs = 1 := by
        rw [Int.gcd_zero_left] at hg
        exact hg
      exact goMod_one_eq_zero h1 _
    · rw [modInverse_zero_of_gcd_ne hg, zero_mul]
      exact Int.zero_emod _

theorem mod_step_cancels (mm a b : Int)
    (hr : goMod (modInverse b mm * a) mm ≠ 0) :
    goMod (a - b * goMod (modInverse b mm * a) mm) mm = 0 := by
  by_cases hg : Int.gcd b mm = 1
  · set n : Int := (mm.natAbs : Int) with hn
    have hmod_self : ∀ x : Int, Int.ModEq n (x % n) x := fun x => Int.emod_emod_of_dvd x dvd_rfl
    have hinv : modInverse b mm = Int.gcdA b mm % n := by
      rw [modInverse, if_pos hg]
      rfl
    have hbez : (1 : Int) = b * Int.gcdA b mm + mm * Int.gcdB b mm := by
      have hb := Int.gcd_eq_gcd_ab b mm
      rw [hg] at hb
      simpa using hb
    have hmm0 : Int.ModEq n mm 0 := by
      show mm % n = 0 % n
      rw [Int.zero_emod, Int.emod_eq_zero_of_dvd (Int.natAbs_dvd.mpr dvd_rfl)]
    have hbA : Int.ModEq n (b * Int.gcdA b mm) 1 := by
      have h2 : Int.ModEq n (b * Int.gcdA b mm + mm * Int.gcdB b mm)
          (b * Int.gcdA b mm + 0 * Int.gcdB b mm) :=
        Int.ModEq.add (Int.ModEq.refl _) (Int.ModEq.mul hmm0 (Int.ModEq.refl _))
      have h3 : b * Int.gcdA b mm + 0 * Int.gcdB b mm = b * Int.gcdA b mm := by ring
      rw [h3] at h2
      rw [hbez]
      exact h2.symm
    -- the whole expression is ≡ a - (b·A)·a ≡ a - a = 0 (mod n)
    have hchain : Int.ModEq n (a - b * goMod (modInverse b mm * a) mm) 0 := by
      have s1 : Int.ModEq n (goMod (modInverse b mm * a) mm) (modInverse b mm * a) :=
        hmod_self _
      have s2 : Int.ModEq n (modInverse b mm) (Int.gcdA b mm) := by
        rw [hinv]
        exact hmod_self _
      have s3 : Int.ModEq n (b * goMod (modInverse b mm * a) mm)
          (b * Int.gcdA b mm * a) := by
        have := Int.ModEq.mul_left b (s1.trans (Int.ModEq.mul s2 (Int.ModEq.refl a)))
        simpa [mul_assoc] using this
      have s4 : Int.ModEq n (b * Int.gcdA b mm * a) (1 * a) :=
        Int.ModEq.mul hbA (Int.ModEq.refl a)
      have s5 : Int.ModEq n (a - b * goMod (modInverse b mm * a) mm) (a - 1 * a) :=
        Int.ModEq.sub (Int.ModEq.refl a) (s3.trans s4)
      have h6 : a - 1 * a = 0 := by ring
      rwa [h6] at s5
    show (a - b * goMod (modInverse b mm * a) mm) % n = 0
    have := hchain
    show _ = 0
    calc (a - b * goMod (modInverse b mm * a) mm) % n = 0 % n := hchain
      _ = 0 := Int.zero_emod n
  · exfalso
    apply hr
    rw [modInverse_zero_of_gcd_ne hg, zero_mul]
    exact Int.zero_emod _

/-! ### the shifted scaled divisor `u` -/

theorem u_getD (m : Option Int) (q : Poly) (r : Int) (R k : Nat) :
    (List.replicate R (0 : Int) ++ q.map (fun c => mapMod m (c * r))).getD k 0 =
      if k < R then 0 else mapMod m (q.getD (k - R) 0 * r) := by
  rw [getD_append]
  simp only [List.length_replicate]
  by_cases hk : k < R
  · rw [if_pos hk, if_pos hk, getD_replicate0]
  · rw [if_neg hk, if_neg hk,
      getD_map0 (fun c => mapMod m (c * r))
        (by show mapMod m (0 * r) = 0; rw [zero_mul]; exact mapMod_zero m)]

theorem length_u (m : Option Int) (q : Poly) (r : Int) (R : Nat) :
    (List.replicate R (0 : Int) ++ q.map (fun c => mapMod m (c * r))).length = R + q.length := by
  simp

theorem trim_Add (p q : Poly) (m : Option Int) : trim (Add p q m) = Add p q m := by
  unfold Add
  by_cases h : Compare p q < 0
  · rw [if_pos h]
    exact trim_idem _
  · rw [if_neg h]
    exact trim_idem _

theorem trim_Sub (p q : Poly) (m : Option Int) : trim (Sub p q m) = Sub p q m :=
  trim_Add p (Neg q) m

theorem canonP_Add (p q : Poly) (m : Option Int) (hp : p ≠ []) : canonP (Add p q m) := by
  have h1 := canonP_trim (Add p q m) (Add_ne_nil p q m hp)
  rwa [trim_Add] at h1

/-! ### the invariant step of the division loop -/

theorem invariant_step (m : Option Int) (q pS quo t : Poly) (r : Int) (R : Nat)
    (hR : R < quo.length) (hz : quo.getD R 0 = 0)
    (hinv : ∀ k, cong m (coeffMul quo q k + t.getD k 0) (pS.getD k 0)) :
    ∀ k, cong m
      (coeffMul (quo.set R r) q k +
        (trim (Sub t (List.replicate R (0 : Int) ++ q.map (fun c => mapMod m (c * r))) m)).getD k 0)
      (pS.getD k 0) := by
  intro k
  have hset := coeffMul_set hR r q k
  rw [hz, sub_zero] at hset
  rw [hset, trim_getD, Sub_getD, u_getD]
  apply cong_trans _ (hinv k)
  apply cong_trans (cong_add (cong_refl m _) (cong_mapMod m _))
  by_cases hkR : R ≤ k
  · rw [if_pos hkR, if_neg (by omega : ¬ k < R)]
    apply cong_trans (cong_add (cong_refl m _) (cong_sub (cong_refl m _) (cong_mapMod m _)))
    have heq : coeffMul quo q k + r * q.getD (k - R) 0 + (t.getD k 0 - q.getD (k - R) 0 * r)
        = coeffMul quo q k + t.getD k 0 := by ring
    rw [heq]
    exact cong_refl m _
  · rw [if_neg hkR, if_pos (by omega : k < R)]
    have heq : coeffMul quo q k + 0 + (t.getD k 0 - 0) = coeffMul quo q k + t.getD k 0 := by
      ring
    rw [heq]
    exact cong_refl m _

theorem next_state_cases (t' : Poly) (D : Nat) (hcanon : canonP t')
    (hlen : t'.length ≤ D + 1) (htopz : t'.getD D 0 = 0) :
    GetDegree t' < (D : Int) ∨ t' = [0] := by
  obtain ⟨hne, htop⟩ := hcanon
  have hl1 : 1 ≤ t'.length := List.length_pos.mpr hne
  rcases Nat.lt_or_ge t'.length (D + 1) with h | h
  · left
    simp only [GetDegree]
    omega
  · have hlen' : t'.length = D + 1 := by omega
    by_cases hD : 1 < t'.length
    · exfalso
      apply htop hD
      rw [hlen', Nat.add_sub_cancel]
      exact htopz
    · have hl : t'.length = 1 := by omega
      have hD0 : D = 0 := by omega
      right
      obtain ⟨a, ha⟩ := List.length_eq_one.mp hl
      subst ha
      rw [hD0] at htopz
      simpa using htopz

theorem goMod_sub_goMod (x y mm : Int) : goMod (x - goMod y mm) mm = goMod (x - y) mm := by
  show (x - y % (mm.natAbs : Int)) % (mm.natAbs : Int) = (x - y) % (mm.natAbs : Int)
  rw [Int.sub_emod x (y % _), Int.emod_emod_of_dvd y dvd_rfl, ← Int.sub_emod]

theorem leadRatio_none (b a : Int) : leadRatio none b a = Int.ediv a b := rfl

theorem leadRatio_some (mm b a : Int) :
    leadRatio (some mm) b a = goMod (modInverse b mm * a) mm := rfl

theorem leadRatio_ne_imp {m : Option Int} {b a : Int} (h : leadRatio m b a ≠ 0) :
    a ≠ 0 ∧ b ≠ 0 := by
  cases m with
  | none => exact ediv_ne_imp h
  | some mm => exact modInverse_r_ne h

theorem abort_next (q pS t' : Poly) (m : Option Int) (fuel : Nat) (quo2 : Poly)
    (hrd : ¬ (GetDegree t' - GetDegree q < 0 ∨ isZero t' = true))
    (hr0 : leadRatio m (q.getD (GetDegree q).toNat 0) (t'.getD (GetDegree t').toNat 0) = 0) :
    divLoop q m pS (fuel + 1) quo2 t' = some (NewPolyInts [0], pS, false) := by
  rw [divLoop_succ, if_neg hrd]
  dsimp only
  rw [if_pos hr0]

/-- The shared continuation of the `divLoop` soundness proof: after a step
whose subtraction cancelled the leading coefficient, either the degree
dropped (recurse through the previous fuel level) or the remainder became the
zero polynomial (the next iteration breaks immediately). -/
theorem continue_topzero (q : Poly) (m : Option Int) (pS : Poly) (n : Nat)
    (ihn : LoopGood q m pS n) (quo t t' : Poly) (r : Int) (R D : Nat)
    (hq_ne : q ≠ []) (ht_ne : t ≠ [])
    (hR : (R : Int) = GetDegree t - GetDegree q)
    (hD : (D : Int) = GetDegree t)
    (ht' : t' = trim (Sub t (List.replicate R (0 : Int) ++
      q.map (fun c => mapMod m (c * r))) m))
    (hz : ∀ i : Nat, (i : Int) ≤ GetDegree t - GetDegree q → quo.getD i 0 = 0)
    (hlen : GetDegree t - GetDegree q < (quo.length : Int))
    (hinv' : ∀ k, cong m (coeffMul (quo.set R r) q k + t'.getD k 0) (pS.getD k 0))
    (htopz : t'.getD D 0 = 0)
    {quo' rem : Poly} (h : divLoop q m pS n (quo.set R r) t' = some (quo', rem, true)) :
    (∀ k, cong m (coeffMul quo' q k + rem.getD k 0) (pS.getD k 0)) ∧
      (rem = [0] ∨ GetDegree rem < GetDegree q) := by
  have ht1 : 1 ≤ t.length := List.length_pos.mpr ht_ne
  have hq1 : 1 ≤ q.length := List.length_pos.mpr hq_ne
  have hcanon : canonP t' := by
    rw [ht']
    exact canonP_trim _ (Add_ne_nil t _ m ht_ne)
  have hulen : (List.replicate R (0 : Int) ++
      q.map (fun c => mapMod m (c * r))).length = R + q.length := length_u m q r R
  have hlent' : t'.length ≤ D + 1 := by
    rw [ht']
    calc (trim (Sub t _ m)).length ≤ (Sub t _ m).length := length_trim_le _
      _ ≤ max t.length _ := length_Sub_le _ _ _
      _ ≤ D + 1 := by
        rw [hulen]
        simp only [GetDegree] at hR hD
        omega
  rcases next_state_cases t' D hcanon hlent' htopz with hdec | hzero
  · -- the degree dropped: recurse
    refine ihn _ _ _ _ h ?_ ?_ hinv'
    · intro i hi
      rw [getD_set, if_neg]
      · refine hz i ?_
        simp only [GetDegree] at hR hD hdec hi ⊢
        omega
      · rintro ⟨rfl, -⟩
        simp only [GetDegree] at hR hD hdec hi
        omega
    · rw [List.length_set]
      simp only [GetDegree] at hR hD hdec ⊢
      simp only [GetDegree] at hlen
      omega
  · -- the remainder became [0]: the next iteration breaks
    rw [hzero] at h hinv'
    cases n with
    | zero =>
      rw [divLoop_zero] at h
      cases h
    | succ n' =>
      rw [divLoop_succ, if_pos (Or.inr (show isZero [0] = true from rfl))] at h
      simp only [Option.some.injEq, Prod.mk.injEq] at h
      obtain ⟨h1, h2, -⟩ := h
      constructor
      · intro k
        rw [← h1, ← h2, coeffMul_trim_left, trim_getD]
        exact hinv' k
      · left
        rw [← h2]
        rfl

theorem divLoop_sound (q : Poly) (m : Option Int) (pS : Poly) :
    ∀ fuel, LoopGood q m pS fuel := by
  intro fuel
  induction fuel with
  | zero =>
    intro quo t quo' rem h _ _ _
    rw [divLoop_zero] at h
    exact Option.noConfusion h
  | succ n ih =>
    intro quo t quo' rem h hz hlen hinv
    rw [divLoop_succ] at h
    by_cases hbr : GetDegree t - GetDegree q < 0 ∨ isZero t = true
    · rw [if_pos hbr] at h
      simp only [Option.some.injEq, Prod.mk.injEq] at h
      obtain ⟨h1, h2, -⟩ := h
      refine ⟨?_, ?_⟩
      · intro k
        rw [← h1, ← h2, coeffMul_trim_left, trim_getD]
        exact hinv k
      · rcases hbr with hrd | hz0
        · right
          have hlt := length_trim_le t
          rw [← h2]
          simp only [GetDegree] at hrd ⊢
          omega
        · left
          rw [← h2, eq_zero_poly_of_isZero t hz0]
          rfl
    · rw [if_neg hbr] at h
      push_neg at hbr
      obtain ⟨hrd0, hnz⟩ := hbr
      dsimp only at h
      by_cases hr0 :
          leadRatio m (q.getD (GetDegree q).toNat 0) (t.getD (GetDegree t).toNat 0) = 0
      · rw [if_pos hr0] at h
        simp at h
      · rw [if_neg hr0] at h
        obtain ⟨ha, hb⟩ := leadRatio_ne_imp hr0
        have ht_ne : t ≠ [] := fun hh => ha (by rw [hh]; exact List.getD_nil)
        have hq_ne : q ≠ [] := fun hh => hb (by rw [hh]; exact List.getD_nil)
        have ht1 : 1 ≤ t.length := List.length_pos.mpr ht_ne
        have hq1 : 1 ≤ q.length := List.length_pos.mpr hq_ne
        set Rn := (GetDegree t - GetDegree q).toNat with hRn
        set Dn := (GetDegree t).toNat with hDn
        set Qn := (GetDegree q).toNat with hQn
        set b := q.getD Qn 0 with hb2
        set a := t.getD Dn 0 with ha2
        set r := leadRatio m b a with hr2
        set u := List.replicate Rn (0 : Int) ++ q.map (fun c => mapMod m (c * r)) with hu2
        set t' := trim (Sub t u m) with ht2
        have hRcast : (Rn : Int) = GetDegree t - GetDegree q := by
          rw [hRn]
          simp only [GetDegree] at hrd0 ⊢
          omega
        have hDcast : (Dn : Int) = GetDegree t := by
          rw [hDn]
          simp only [GetDegree]
          omega
        have hlt : t.length = Dn + 1 := by
          rw [hDn]
          simp only [GetDegree]
          omega
        have hlq : q.length = Qn + 1 := by
          rw [hQn]
          simp only [GetDegree]
          omega
        have hDRQ : Dn = Rn + Qn := by
          rw [hDn, hQn, hRn]
          simp only [GetDegree] at hrd0 ⊢
          omega
        have hRlt : Rn < quo.length := by
          simp only [GetDegree] at hrd0 hlen
          omega
        have hz0 : quo.getD Rn 0 = 0 := hz Rn (le_of_eq hRcast)
        have hinv' := invariant_step m q pS quo t r Rn hRlt hz0 hinv
        rw [← hu2, ← ht2] at hinv'
        have hnotlt : ¬ Dn < Rn := by omega
        have hsubidx : Dn - Rn = Qn := by omega
        have hul : u.length = Rn + q.length := by
          rw [hu2]
          exact length_u m q r Rn
        have htop : t'.getD Dn 0 = mapMod m (a - mapMod m (b * r)) := by
          rw [ht2, trim_getD, Sub_getD, hu2, u_getD, if_neg hnotlt, hsubidx, ← hb2, ← ha2]
        have hkey : t'.getD Dn 0 = 0 ∨ (m = none ∧ t'.getD Dn 0 ≠ 0) := by
          cases m with
          | none =>
            by_cases hc : t'.getD Dn 0 = 0
            · exact Or.inl hc
            · exact Or.inr ⟨rfl, hc⟩
          | some mm =>
            left
            rw [htop, hr2, leadRatio_some]
            show goMod (a - goMod (b * goMod (modInverse b mm * a) mm) mm) mm = 0
            rw [goMod_sub_goMod]
            exact mod_step_cancels mm a b (by rw [hr2, leadRatio_some] at hr0; exact hr0)
        rcases hkey with htopz | ⟨hmn, htopnz⟩
        · exact continue_topzero q m pS n ih quo t t' r Rn Dn hq_ne ht_ne hRcast hDcast
            (by rw [ht2, hu2]) hz hlen hinv' htopz h
        · subst hmn
          have htop_emod : t'.getD Dn 0 = a % b := by
            rw [htop, hr2, leadRatio_none]
            show a - b * Int.ediv a b = a % b
            exact (Int.emod_def a b).symm
          have h0le : 0 ≤ a % b := Int.emod_nonneg a hb
          have hltb : a % b < |b| := emod_lt_abs a hb
          have hDnlt : Dn < t'.length := lt_length_of_getD_ne t' htopnz
          have hlent'le : t'.length ≤ Dn + 1 := by
            rw [ht2]
            calc (trim (Sub t u none)).length ≤ (Sub t u none).length := length_trim_le _
              _ ≤ max t.length u.length := length_Sub_le _ _ _
              _ ≤ Dn + 1 := by omega
          have hlent' : t'.length = Dn + 1 := by omega
          cases n with
          | zero =>
            rw [divLoop_zero] at h
            exact Option.noConfusion h
          | succ n' =>
            have hcond : ¬ (GetDegree t' - GetDegree q < 0 ∨ isZero t' = true) := by
              push_neg
              refine ⟨?_, ?_⟩
              · simp only [GetDegree]
                omega
              · intro hzz
                obtain ⟨hl1, hg0⟩ := (isZero_iff t').mp hzz
                have hD0 : Dn = 0 := by omega
                exact htopnz (by rw [hD0]; exact hg0)
            have hidx : (GetDegree t').toNat = Dn := by
              simp only [GetDegree]
              omega
            have hr0' : leadRatio none (q.getD (GetDegree q).toNat 0)
                (t'.getD (GetDegree t').toNat 0) = 0 := by
              rw [leadRatio_none, hidx, htop_emod, ← hQn, ← hb2]
              exact ediv_eq_zero_of_bounds hb h0le hltb
            rw [abort_next q pS t' none n' (quo.set Rn r) hcond hr0'] at h
            simp at h

/-- C1 (amended): whenever division completes without aborting (any fuel, any
operands, any optional modulus — the claim's prime modulus is not even
needed), the result satisfies `quotient·Q + remainder ≡ P` coefficientwise
(mod `m` when supplied, exactly when not), and — provided Q does not reduce to
the zero polynomial mod m — the remainder is the zero polynomial or has degree
strictly less than deg(Q).  The proviso is forced: dividing by the zero
polynomial also completes without aborting, returning remainder = P. -/
theorem c1_divide_postcondition :
    ∀ (fuel : Nat) (p q : Poly) (m : Option Int) (quo rem : Poly),
    DivF fuel p q m = some (quo, rem, true) →
    (∀ k, cong m (coeffMul quo q k + rem.getD k 0) (p.getD k 0)) ∧
      (isZero (sanitize q m) = false → rem = [0] ∨ GetDegree rem < GetDegree q) := by
  intro fuel p q m quo rem h
  unfold DivF at h
  dsimp only at h
  by_cases hearly :
      GetDegree (sanitize p m) < GetDegree (sanitize q m) ∨ isZero (sanitize q m) = true
  · rw [if_pos hearly] at h
    simp only [Option.some.injEq, Prod.mk.injEq] at h
    obtain ⟨h1, h2, -⟩ := h
    constructor
    · intro k
      rw [← h1, ← h2, show NewPolyInts [0] = [0] from rfl,
        coeffMul_zero_left getD_zero_poly q k, sanitize_getD, zero_add]
      exact cong_mapMod m _
    · intro hqz
      rcases hearly with hdeg | hzq
      · right
        rw [GetDegree_sanitize, GetDegree_sanitize] at hdeg
        rw [← h2, GetDegree_sanitize]
        exact hdeg
      · rw [hzq] at hqz
        exact Bool.noConfusion hqz
  · rw [if_neg hearly] at h
    have hmaster := divLoop_sound (sanitize q m) m (sanitize p m) fuel _ _ _ _ h
      (fun i _ => getD_replicate0 _ i)
      (by
        rw [List.length_replicate]
        push_neg at hearly
        simp only [GetDegree, length_sanitize] at hearly ⊢
        omega)
      (by
        intro k
        rw [coeffMul_zero_left (fun i => getD_replicate0 _ i) _ k, zero_add]
        exact cong_refl m _)
    constructor
    · intro k
      have e1 : cong m (coeffMul quo q k) (coeffMul quo (sanitize q m) k) :=
        coeffMul_cong_right quo
          (fun i => cong_symm (by rw [sanitize_getD]; exact cong_mapMod m _)) k
      exact cong_trans (cong_add e1 (cong_refl m _))
        (cong_trans (hmaster.1 k) (by rw [sanitize_getD]; exact cong_mapMod m _))
    · intro hqnz
      rcases hmaster.2 with h0 | hdeg'
      · exact Or.inl h0
      · right
        rwa [GetDegree_sanitize] at hdeg'

/-- C1 counterexample: `Div [1] [0] (some 2)` (prime modulus 2, division by
the zero polynomial) completes without aborting, returning quotient `[0]` and
remainder `[1]` — but the remainder is neither the zero polynomial nor of
degree strictly less than `deg Q = 0`, so the claim's unconditional degree
clause fails. -/
theorem c1_counterexample :
    Div [1] [0] (some 2) = some (NewPolyInts [0], [1], true) ∧
      ¬ (([1] : Poly) = [0] ∨ GetDegree [1] < GetDegree [0]) := by
  decide

/-- C1 witness: the spec's own scenario `P = 3x³ + 2x + 1`, `Q = x + 1`,
no modulus: the division completes with quotient `3x² − 3x + 5` and remainder
`−4`, and the theorem's two conclusions are instantiated at it (the identity
coefficient at degree 3, and the degree bound). -/
theorem c1_witness :
    cong none (coeffMul [5, -3, 3] [1, 1] 3 + ([-4] : Poly).getD 3 0)
        (([1, 2, 0, 3] : Poly).getD 3 0) ∧
      (([-4] : Poly) = [0] ∨ GetDegree [-4] < GetDegree [1, 1]) :=
  ⟨(c1_divide_postcondition 10 [1, 2, 0, 3] [1, 1] none [5, -3, 3] [-4] (by decide)).1 3,
    (c1_divide_postcondition 10 [1, 2, 0, 3] [1, 1] none [5, -3, 3] [-4] (by decide)).2
      (by decide)⟩

/-! ### C2: the exactness rule in no-modulus mode -/

theorem divExactLoop_zero (q t : Poly) : divExactLoop q 0 t = true := rfl

theorem divExactLoop_succ (q t : Poly) (fuel : Nat) :
    divExactLoop q (fuel + 1) t =
      if GetDegree t - GetDegree q < 0 ∨ isZero t then true
      else
        if q.getD (GetDegree q).toNat 0 ∣ t.getD (GetDegree t).toNat 0 then
          divExactLoop q fuel (trim (Sub t (List.replicate (GetDegree t - GetDegree q).toNat 0 ++
            q.map (fun c => mapMod none (c * Int.ediv (t.getD (GetDegree t).toNat 0)
              (q.getD (GetDegree q).toNat 0)))) none))
        else false := rfl

theorem divLoop_abort_of_inexact (q pS : Poly) :
    ∀ (fuel : Nat) (t quo : Poly) (out : Poly × Poly × Bool),
      divLoop q none pS fuel quo t = some out →
      divExactLoop q fuel t = false →
      out = (NewPolyInts [0], pS, false) := by
  intro fuel
  induction fuel with
  | zero =>
    intro t quo out h _
    rw [divLoop_zero] at h
    exact Option.noConfusion h
  | succ n ih =>
    intro t quo out h hex
    rw [divLoop_succ] at h
    rw [divExactLoop_succ] at hex
    by_cases hbr : GetDegree t - GetDegree q < 0 ∨ isZero t = true
    · rw [if_pos hbr] at hex
      exact Bool.noConfusion hex
    · rw [if_neg hbr] at h hex
      push_neg at hbr
      obtain ⟨hrd0, hnz⟩ := hbr
      dsimp only at h
      rw [leadRatio_none] at h
      by_cases hr0 : Int.ediv (t.getD (GetDegree t).toNat 0) (q.getD (GetDegree q).toNat 0) = 0
      · rw [if_pos hr0] at h
        exact (Option.some.inj h).symm
      · rw [if_neg hr0] at h
        by_cases hdvd : q.getD (GetDegree q).toNat 0 ∣ t.getD (GetDegree t).toNat 0
        · rw [if_pos hdvd] at hex
          exact ih _ _ _ h hex
        · obtain ⟨ha, hb⟩ := ediv_ne_imp hr0
          have ht_ne : t ≠ [] := fun hh => ha (by rw [hh]; exact List.getD_nil)
          have hq_ne : q ≠ [] := fun hh => hb (by rw [hh]; exact List.getD_nil)
          have ht1 : 1 ≤ t.length := List.length_pos.mpr ht_ne
          have hq1 : 1 ≤ q.length := List.length_pos.mpr hq_ne
          set Rn := (GetDegree t - GetDegree q).toNat with hRn
          set Dn := (GetDegree t).toNat with hDn
          set Qn := (GetDegree q).toNat with hQn
          set b := q.getD Qn 0 with hb2
          set a := t.getD Dn 0 with ha2
          set u := List.replicate Rn (0 : Int) ++
            q.map (fun c => mapMod none (c * Int.ediv a b)) with hu2
          set t' := trim (Sub t u none) with ht2
          have hlt : t.length = Dn + 1 := by
            rw [hDn]
            simp only [GetDegree]
            omega
          have hlq : q.length = Qn + 1 := by
            rw [hQn]
            simp only [GetDegree]
            omega
          have hDRQ : Dn = Rn + Qn := by
            rw [hDn, hQn, hRn]
            simp only [GetDegree] at hrd0 ⊢
            omega
          have hnotlt : ¬ Dn < Rn := by omega
          have hsubidx : Dn - Rn = Qn := by omega
          have hul : u.length = Rn + q.length := by
            rw [hu2]
            exact length_u none q (Int.ediv a b) Rn
          have htop : t'.getD Dn 0 = a % b := by
            rw [ht2, trim_getD, Sub_getD, hu2, u_getD, if_neg hnotlt, hsubidx, ← hb2, ← ha2]
            show a - b * Int.ediv a b = a % b
            exact (Int.emod_def a b).symm
          have htopnz : t'.getD Dn 0 ≠ 0 := by
            rw [htop]
            intro hc
            exact hdvd (Int.dvd_of_emod_eq_zero hc)
          have hDnlt : Dn < t'.length := lt_length_of_getD_ne t' htopnz
          have hlent'le : t'.length ≤ Dn + 1 := by
            rw [ht2]
            calc (trim (Sub t u none)).length ≤ (Sub t u none).length := length_trim_le _
              _ ≤ max t.length u.length := length_Sub_le _ _ _
              _ ≤ Dn + 1 := by omega
          have hlent' : t'.length = Dn + 1 := by omega
          cases n with
          | zero =>
            rw [divLoop_zero] at h
            exact Option.noConfusion h
          | succ n' =>
            have hcond : ¬ (GetDegree t' - GetDegree q < 0 ∨ isZero t' = true) := by
              push_neg
              refine ⟨?_, ?_⟩
              · simp only [GetDegree]
                omega
              · intro hzz
                obtain ⟨hl1, hg0⟩ := (isZero_iff t').mp hzz
                have hD0 : Dn = 0 := by omega
                exact htopnz (by rw [hD0]; exact hg0)
            have hidx : (GetDegree t').toNat = Dn := by
              simp only [GetDegree]
              omega
            have hr0' : leadRatio none (q.getD (GetDegree q).toNat 0)
                (t'.getD (GetDegree t').toNat 0) = 0 := by
              rw [leadRatio_none, hidx, htop, ← hQn, ← hb2]
              exact ediv_eq_zero_of_bounds hb (Int.emod_nonneg a hb) (emod_lt_abs a hb)
            rw [abort_next q pS t' none n' (quo.set Rn (Int.ediv a b)) hcond hr0'] at h
            exact (Option.some.inj h).symm

/-- C2: in no-modulus mode, if any iteration of the division loop meets a
leading-coefficient pair whose true ratio is not an integer (`divExactF` is
`false`), the entire division aborts, discarding all partial progress: the
quotient is the zero polynomial `[0]`, the remainder is the original `P`
unchanged, and the completion flag records the abort.  (Since coefficients are
integers throughout, divide can never produce fractional coefficients.) -/
theorem c2_inexact_division_aborts :
    ∀ (fuel : Nat) (p q quo rem : Poly) (ab : Bool),
    DivF fuel p q none = some (quo, rem, ab) →
    divExactF fuel p q = false →
    quo = NewPolyInts [0] ∧ rem = p ∧ ab = false := by
  intro fuel p q quo rem ab h hex
  unfold DivF at h
  unfold divExactF at hex
  dsimp only at h
  simp only [sanitize] at h
  by_cases hearly : GetDegree p < GetDegree q ∨ isZero q = true
  · rw [if_pos hearly] at hex
    exact Bool.noConfusion hex
  · rw [if_neg hearly] at h hex
    have hout := divLoop_abort_of_inexact q p fuel p _ (quo, rem, ab) h hex
    simp only [Prod.mk.injEq] at hout
    exact ⟨hout.1, hout.2.1, hout.2.2⟩

/-- C2 witness: `P = 3x`, `Q = 2x` — the first iteration's true ratio `3/2` is
not an integer; the division aborts to quotient `[0]` and remainder `P`. -/
theorem c2_witness : ([0] : Poly) = NewPolyInts [0] ∧ ([0, 3] : Poly) = [0, 3] ∧ false = false :=
  c2_inexact_division_aborts 8 [0, 3] [0, 2] [0] [0, 3] false (by decide) (by decide)

/-! ### C8: canonical forms -/

theorem length_foldl_set_aux :
    ∀ (J : List Nat) (r : Poly) (idx : Nat → Nat) (val : Poly → Nat → Int),
      (J.foldl (fun r' j => r'.set (idx j) (val r' j)) r).length = r.length := by
  intro J
  induction J with
  | nil => intro r idx val; rfl
  | cons j J ihJ =>
    intro r idx val
    rw [List.foldl_cons, ihJ, List.length_set]

theorem length_mulLoops (pp qq : Poly) (m : Option Int) (r0 : Poly) :
    (mulLoops pp qq m r0).length = r0.length := by
  unfold mulLoops
  generalize List.range pp.length = I
  induction I generalizing r0 with
  | nil => rfl
  | cons i I ihI =>
    rw [List.foldl_cons, ihI]
    exact length_foldl_set_aux _ _ _ _

theorem Mul_ne_nil (p q : Poly) (m : Option Int) (hp : p ≠ []) (hq : q ≠ []) :
    Mul p q m ≠ [] := by
  unfold Mul
  dsimp only
  apply trim_ne_nil
  intro hc
  have hl := congrArg List.length hc
  rw [length_mulLoops, List.length_replicate, List.length_nil] at hl
  have hp1 : 1 ≤ p.length := List.length_pos.mpr hp
  have hq1 : 1 ≤ q.length := List.length_pos.mpr hq
  simp only [GetDegree, length_sanitize] at hl
  omega

theorem canonP_Mul (p q : Poly) (m : Option Int) (hp : p ≠ []) (hq : q ≠ []) :
    canonP (Mul p q m) := by
  have h1 := canonP_trim (mulLoops (sanitize p m) (sanitize q m) m
    (List.replicate (GetDegree (sanitize p m) + GetDegree (sanitize q m) + 1).toNat 0))
    (by
      intro hc
      have hl := congrArg List.length hc
      rw [length_mulLoops, List.length_replicate, List.length_nil] at hl
      have hp1 : 1 ≤ p.length := List.length_pos.mpr hp
      have hq1 : 1 ≤ q.length := List.length_pos.mpr hq
      simp only [GetDegree, length_sanitize] at hl
      omega)
  exact h1

theorem divLoop_canon (q : Poly) (m : Option Int) (pS : Poly) :
    ∀ (fuel : Nat) (quo t : Poly) (out : Poly × Poly × Bool),
      divLoop q m pS fuel quo t = some out →
      quo ≠ [] → t ≠ [] →
      canonP out.1 ∧ (out.2.1 = pS ∨ canonP out.2.1) := by
  intro fuel
  induction fuel with
  | zero =>
    intro quo t out h _ _
    rw [divLoop_zero] at h
    exact Option.noConfusion h
  | succ n ih =>
    intro quo t out h hquo ht
    rw [divLoop_succ] at h
    by_cases hbr : GetDegree t - GetDegree q < 0 ∨ isZero t = true
    · rw [if_pos hbr] at h
      have hout := Option.some.inj h
      subst hout
      exact ⟨canonP_trim quo hquo, Or.inr (canonP_trim t ht)⟩
    · rw [if_neg hbr] at h
      dsimp only at h
      by_cases hr0 :
          leadRatio m (q.getD (GetDegree q).toNat 0) (t.getD (GetDegree t).toNat 0) = 0
      · rw [if_pos hr0] at h
        have hout := Option.some.inj h
        subst hout
        refine ⟨?_, Or.inl rfl⟩
        show canonP (NewPolyInts [0])
        decide
      · rw [if_neg hr0] at h
        refine ih _ _ _ h ?_ ?_
        · intro hc
          apply hquo
          have hl := congrArg List.length hc
          rw [List.length_set, List.length_nil] at hl
          exact List.length_eq_zero.mp hl
        · exact trim_ne_nil _ (Add_ne_nil t _ m ht)

theorem Div_canon (p q : Poly) (m : Option Int) (quo rem : Poly) (ab : Bool)
    (h : Div p q m = some (quo, rem, ab)) (hp : p ≠ []) :
    canonP quo ∧ (rem = sanitize p m ∨ canonP rem) := by
  unfold Div DivF at h
  dsimp only at h
  have hpS : sanitize p m ≠ [] := by
    intro hc
    apply hp
    have hl := congrArg List.length hc
    rw [length_sanitize, List.length_nil] at hl
    exact List.length_eq_zero.mp hl
  by_cases hearly :
      GetDegree (sanitize p m) < GetDegree (sanitize q m) ∨ isZero (sanitize q m) = true
  · rw [if_pos hearly] at h
    have hout := Option.some.inj h
    simp only [Prod.mk.injEq] at hout
    obtain ⟨h1, h2, -⟩ := hout
    exact ⟨h1 ▸ (by decide), Or.inl h2.symm⟩
  · rw [if_neg hearly] at h
    have hq1 : 1 ≤ p.length := List.length_pos.mpr hp
    have hquo0 : (List.replicate
        (GetDegree (sanitize p m) - GetDegree (sanitize q m) + 1).toNat (0 : Int)) ≠ [] := by
      intro hc
      have hl := congrArg List.length hc
      rw [List.length_replicate, List.length_nil] at hl
      push_neg at hearly
      simp only [GetDegree, length_sanitize] at hearly hl
      omega
    exact divLoop_canon (sanitize q m) m (sanitize p m) _ _ _ (quo, rem, ab) h hquo0 hpS

theorem GcdF_zero (p q : Poly) (m : Option Int) : GcdF 0 p q m = none := rfl

theorem GcdF_succ (p q : Poly) (m : Option Int) (fuel : Nat) :
    GcdF (fuel + 1) p q m =
      if Compare p q < 0 then GcdF fuel q p m
      else if isZero q then some p
      else
        match Div p q m with
        | some (_, rem, _) => GcdF fuel q rem m
        | none => none := rfl

theorem GcdF_canon :
    ∀ (fuel : Nat) (p q g : Poly),
      GcdF fuel p q none = some g → canonP p → canonP q → canonP g := by
  intro fuel
  induction fuel with
  | zero =>
    intro p q g h _ _
    rw [GcdF_zero] at h
    exact Option.noConfusion h
  | succ n ih =>
    intro p q g h hp hq
    rw [GcdF_succ] at h
    by_cases hc : Compare p q < 0
    · rw [if_pos hc] at h
      exact ih q p g h hq hp
    · rw [if_neg hc] at h
      by_cases hz : isZero q = true
      · rw [if_pos hz] at h
        exact (Option.some.inj h) ▸ hp
      · rw [if_neg hz] at h
        cases hd : Div p q none with
        | none =>
          rw [hd] at h
          exact Option.noConfusion h
        | some res =>
          obtain ⟨quo2, rem2, ab2⟩ := res
          rw [hd] at h
          have hdiv := Div_canon p q none quo2 rem2 ab2 hd hp.1
          have hrem : canonP rem2 := by
            rcases hdiv.2 with he | hcn
            · rw [he]
              exact hp
            · exact hcn
          exact ih q rem2 g h hq hrem

/-- C8 (amended): canonicalization (`trim`) is idempotent, and every
polynomial returned by construction, `Add`, `Sub`, `Mul`, the quotient of
`Div`, and (without a modulus, for canonical inputs) the remainder of `Div`
and the result of `Gcd` is canonical — never empty, with a nonzero leading
coefficient whenever the length exceeds 1.  With a modulus, the early-return
and abort paths of `Div` return the sanitized dividend as remainder, which may
carry a zero leading coefficient (see the counterexample), so the claim's
coverage of those paths only survives in no-modulus mode. -/
theorem c8_canonical_forms :
    ∀ (p q : Poly) (m : Option Int), p ≠ [] → q ≠ [] →
    trim (trim p) = trim p ∧
    canonP (NewPolyInts p) ∧
    canonP (Add p q m) ∧
    canonP (Sub p q m) ∧
    canonP (Mul p q m) ∧
    (∀ quo rem ab, Div p q m = some (quo, rem, ab) →
      canonP quo ∧ (m = none → canonP p → canonP rem)) ∧
    (∀ fuel g, GcdF fuel p q none = some g → canonP p → canonP q → canonP g) := by
  intro p q m hp hq
  refine ⟨trim_idem p, ?_, canonP_Add p q m hp, canonP_Add p (Neg q) m hp,
    canonP_Mul p q m hp hq, ?_, fun fuel g h hcp hcq => GcdF_canon fuel p q g h hcp hcq⟩
  · rw [NewPolyInts, if_neg hp]
    exact canonP_trim p hp
  · intro quo rem ab h
    have hdiv := Div_canon p q m quo rem ab h hp
    refine ⟨hdiv.1, ?_⟩
    rintro rfl hcp
    rcases hdiv.2 with he | hcn
    · rw [he]
      exact hcp
    · exact hcn

/-- C8 counterexample: `Div [1,5] [0,0,1] (some 5)` takes the early-return
path after sanitizing `P = 5x + 1` to `[1, 0]`, and returns that `[1, 0]` as
the remainder — a length-2 polynomial with a zero leading coefficient, which
violates the canonical-form invariant the claim asserts for every returned
polynomial. -/
theorem c8_counterexample :
    Div [1, 5] [0, 0, 1] (some 5) = some (NewPolyInts [0], [1, 0], true) ∧
      ¬ canonP [1, 0] := by
  decide

/-- C8 witness: the amended theorem applied at `P = x + 1`, `Q = 2`, no
modulus — the product `Mul [1,1] [2] none = [2,2]` is canonical. -/
theorem c8_witness : canonP (Mul [1, 1] [2] none) :=
  (c8_canonical_forms [1, 1] [2] none (by decide) (by decide)).2.2.2.2.1

/-! ### C9: the Gcd recursion and the exactness-abort stall -/

/-- C9 (amended): `Gcd` does not guard against the division engine's
exactness-abort stall: whenever `Compare p q = 1`, `q` is not the zero
polynomial, and `Div p q none` aborts returning the dividend `p` unchanged as
remainder, the recursion alternates between `(p, q)` and `(q, p)` forever and
never returns, whatever recursion budget it is given. -/
theorem c9_gcd_stall_diverges :
    ∀ p q : Poly, Compare p q = 1 → isZero q = false →
    Div p q none = some (NewPolyInts [0], p, false) →
    gcdDiverges p q none := by
  intro p q hcmp hqz hdiv
  have key : ∀ n, GcdF n p q none = none ∧ GcdF n q p none = none := by
    intro n
    induction n with
    | zero => exact ⟨rfl, rfl⟩
    | succ k ihk =>
      constructor
      · rw [GcdF_succ, if_neg (by rw [hcmp]; decide),
          if_neg (fun hc => by rw [hqz] at hc; exact Bool.noConfusion hc), hdiv]
        exact ihk.2
      · rw [GcdF_succ, if_pos (show Compare q p < 0 by rw [compare_antisymm p q, hcmp]; decide)]
        exact ihk.1
  intro n
  exact (key n).1

/-- C9 counterexample: `Gcd (3x) (2x)` without a modulus never terminates:
the division aborts with remainder `3x`, the recursion swaps back to the same
pair, and no recursion budget suffices — refuting the claim that the
implementation guards against the stall and always terminates. -/
theorem c9_counterexample : gcdDiverges [0, 3] [0, 2] none := by
  have key : ∀ n, GcdF n [0, 3] [0, 2] none = none ∧ GcdF n [0, 2] [0, 3] none = none := by
    intro n
    induction n with
    | zero => exact ⟨rfl, rfl⟩
    | succ k ihk =>
      constructor
      · rw [GcdF_succ, if_neg (by decide), if_neg (by decide),
          show Div [0, 3] [0, 2] none = some (NewPolyInts [0], [0, 3], false) from by decide]
        exact ihk.2
      · rw [GcdF_succ, if_pos (by decide : Compare [0, 2] [0, 3] < 0)]
        exact ihk.1
  intro n
  exact (key n).1

/-- C9 witness: the stall theorem applied at `P = 5x`, `Q = 3x` — the
division's true ratio 5/3 is not exact, the abort returns `P` unchanged, and
the Gcd recursion diverges. -/
theorem c9_witness : gcdDiverges [0, 5] [0, 3] none :=
  c9_gcd_stall_diverges [0, 5] [0, 3] (by decide) (by decide) (by decide)

/-- C10: for every `n`, `k` and prime modulus `q` (with the random source
modelled as the stream `rands`), `GenRandomShares n k q rands` returns `n`
shares and a polynomial of degree `k − 1` such that the `i`-th share's
x-coordinate is the `(k+i)`-th random sample reduced mod `q` (an independently
sampled field element, not the sequential index `i`), and every share
satisfies `Eval p x (some q) = y`. -/
theorem c10_generate_shares :
    ∀ (n k : Nat) (q : Int) (rands : Nat → Int) (ps : List (Int × Int)) (p : Poly),
    Nat.Prime q.toNat →
    GenRandomShares n k q rands = some (ps, p) →
    ps.length = n ∧
    GetDegree p = (k : Int) - 1 ∧
    (∀ i, i < n → ps.getD i (0, 0) =
      (goMod (rands (k + i)) q, Eval p (goMod (rands (k + i)) q) (some q))) ∧
    (∀ pt ∈ ps, Eval p pt.1 (some q) = pt.2) := by
  intro n k q rands ps p hprime h
  have hpp : probablyPrime q = true := decide_eq_true hprime
  unfold GenRandomShares at h
  rw [if_neg (fun hc => hc hpp)] at h
  dsimp only at h
  simp only [Option.some.injEq, Prod.mk.injEq] at h
  obtain ⟨hps, hp⟩ := h
  subst hp
  refine ⟨?_, ?_, ?_, ?_⟩
  · rw [← hps]
    simp
  · simp [GetDegree]
  · intro i hi
    rw [← hps, List.getD_eq_getElem?_getD, List.getElem?_map, List.getElem?_range hi]
    rfl
  · intro pt hpt
    rw [← hps] at hpt
    obtain ⟨i, -, rfl⟩ := List.mem_map.mp hpt
    rfl

/-- C10 witness: `n = 2`, `k = 2`, prime modulus `5`, random stream
`i ↦ i + 3`: two shares are produced from the degree-1 polynomial `[3, 4]`. -/
theorem c10_witness :
    ([(0, 3), (1, 2)] : List (Int × Int)).length = 2 ∧ GetDegree [3, 4] = (2 : Int) - 1 :=
  ⟨(c10_generate_shares 2 2 5 (fun i => (i : Int) + 3) [(0, 3), (1, 2)] [3, 4]
      (by decide) (by decide)).1,
    (c10_generate_shares 2 2 5 (fun i => (i : Int) + 3) [(0, 3), (1, 2)] [3, 4]
      (by decide) (by decide)).2.1⟩

end PolyGo
